import Mathlib

/-!
Verification of the document-analysis core of the repository
(`app/services/document_analysis.py`, `app/services/validation.py`,
`app/services/storage.py` and the orchestration in
`DocumentAnalyzerService.analyze`).

Text is modelled as `List Char`.  Python `float` values are modelled as
rationals (`ℚ`): every numeric value handled by the code is produced by
parsing a decimal string, and every comparison made by the claims is
against a decimal literal, so the rational model is exact on that domain.
Regular-expression behaviour (leftmost match, greedy quantifiers with
backtracking, alternation tried in written order, `re.findall` scanning)
is embedded by specialised matchers, one per pattern of the source,
reproducing the backtracking behaviour of Python's `re` engine on the
character classes involved.
-/

namespace DocAnalysis

abbrev Chars := List Char

/-- Whitespace as matched by Python's `\s` / `str.strip()` for the character
repertoire handled by this code base (ASCII whitespace plus the common
Unicode members NEL and NBSP; file/group/record/unit separators included as
Python classifies them as whitespace). -/
def pySpace (c : Char) : Bool :=
  c = ' ' ∨ c = '\t' ∨ c = '\n' ∨ c = '\r' ∨ c = '\x0b' ∨ c = '\x0c' ∨
  c = '\x1c' ∨ c = '\x1d' ∨ c = '\x1e' ∨ c = '\x1f' ∨ c = '\x85' ∨ c = '\xa0'

/-- Case folding as used by `str.lower()` / `re.IGNORECASE`, for the ASCII
letters and the accented letters that occur in the source patterns. -/
def pyLower (c : Char) : Char :=
  if 'A' ≤ c ∧ c ≤ 'Z' then Char.ofNat (c.toNat + 32)
  else if c = 'Á' then 'á' else if c = 'É' then 'é' else if c = 'Í' then 'í'
  else if c = 'Ó' then 'ó' else if c = 'Ú' then 'ú' else if c = 'Ü' then 'ü'
  else if c = 'Ñ' then 'ñ' else c

/-- Upper casing as used by `str.upper()` on the ASCII labels returned by the
sentiment pipeline. -/
def pyUpper (c : Char) : Char :=
  if 'a' ≤ c ∧ c ≤ 'z' then Char.ofNat (c.toNat - 32) else c

/-- Word characters for Python's `\b` / `\w` on the repertoire of the source
patterns: ASCII alphanumerics, underscore, and the accented letters used by
the code. -/
def isWordC (c : Char) : Bool :=
  c.isAlphanum ∨ c = '_' ∨
  (pyLower c = 'á' ∨ pyLower c = 'é' ∨ pyLower c = 'í' ∨ pyLower c = 'ó' ∨
   pyLower c = 'ú' ∨ pyLower c = 'ü' ∨ pyLower c = 'ñ')

/-! ## `DocumentTextExtractor._sanitize`

```python
clean = text.replace("\x00", " ")
clean = re.sub(r"\s+", " ", clean).strip()
return clean[:10000]
``` -/

/-- `text.replace("\x00", " ")`. -/
def replaceNul (l : Chars) : Chars :=
  l.map (fun c => if c = '\x00' then ' ' else c)

/-- `re.sub(r"\s+", " ", l)`: every maximal run of whitespace becomes a
single `' '`.  The flag records whether the previous character belonged to a
whitespace run that has already emitted its space. -/
def collapseAux (inRun : Bool) : Chars → Chars
  | [] => []
  | c :: t =>
    if pySpace c then
      if inRun then collapseAux true t else ' ' :: collapseAux true t
    else c :: collapseAux false t

def collapseWs (l : Chars) : Chars := collapseAux false l

/-- Strip characters satisfying `p` from both ends (`str.strip` family). -/
def stripEnds (p : Char → Bool) (l : Chars) : Chars :=
  ((l.dropWhile p).reverse.dropWhile p).reverse

/-- `str.strip()` with no argument: strip whitespace. -/
def pyStrip (l : Chars) : Chars := stripEnds pySpace l

/-- `DocumentTextExtractor._sanitize`. -/
def sanitize (l : Chars) : Chars :=
  (pyStrip (collapseWs (replaceNul l))).take 10000

/-! ## `InvoiceParser._normalize_amount`

```python
if not value: return None
cleaned = value.replace("$", "").replace(" ", "")
if "," in cleaned and "." in cleaned:   cleaned = cleaned.replace(",", "")
elif "," in cleaned and "." not in cleaned: cleaned = cleaned.replace(",", ".")
try: return float(cleaned)
except ValueError:
    cleaned = cleaned.replace(".", "").replace(",", ".")
    try: return float(cleaned)
    except ValueError: return None
``` -/

/-- Numeric value of a digit string (most significant first). -/
def natOfDigits (l : Chars) : Nat :=
  l.foldl (fun n c => 10 * n + (c.toNat - 48)) 0

/-- Python `float(s)` restricted to the strings this code can feed it
(characters drawn from digits, `'.'` and `','` — the capture class
`[\d.,]` minus the stripped `$`/space): accepts `digits* ['.' digits*]`
with at least one digit, rejects anything containing `','` or a second
`'.'`.  Result is the exact decimal value as a rational. -/
def parseFloatQ (s : Chars) : Option ℚ :=
  let ip := s.takeWhile Char.isDigit
  match s.dropWhile Char.isDigit with
  | [] => if ip = [] then none else some (mkRat (natOfDigits ip) 1)
  | '.' :: frac =>
    if frac.all Char.isDigit ∧ (ip ≠ [] ∨ frac ≠ []) then
      some (mkRat (natOfDigits ip * 10 ^ frac.length + natOfDigits frac)
        (10 ^ frac.length))
    else none
  | _ => none

/-- `cleaned = value.replace("$", "").replace(" ", "")`. -/
def cleanAmount (value : Chars) : Chars :=
  (value.filter (fun c => c ≠ '$')).filter (fun c => c ≠ ' ')

/-- The separator-disambiguation reassignments of `cleaned`. -/
def branchAmount (cleaned0 : Chars) : Chars :=
  if cleaned0.contains ',' ∧ cleaned0.contains '.' then
    cleaned0.filter (fun c => c ≠ ',')
  else if cleaned0.contains ',' ∧ ¬ cleaned0.contains '.' then
    cleaned0.map (fun c => if c = ',' then '.' else c)
  else cleaned0

/-- `InvoiceParser._normalize_amount` on a present string (`None` input is
handled at the call sites, which never pass it).  The `except ValueError`
fallback re-cleans the current `cleaned` (stripping `'.'` and turning `','`
into `'.'`) and retries. -/
def normalizeAmount (value : Chars) : Option ℚ :=
  if value = [] then none
  else
    match parseFloatQ (branchAmount (cleanAmount value)) with
    | some q => some q
    | none =>
      parseFloatQ (((branchAmount (cleanAmount value)).filter
        (fun c => c ≠ '.')).map (fun c => if c = ',' then '.' else c))

/-! ## `DocumentClassifier.classify`

```python
KEYWORDS = ["factura", "invoice", "subtotal", "iva", "total"]
score = sum(1 for word in self.KEYWORDS if word in text.lower())
return "FACTURA" if score >= 2 else "INFORMACION"
``` -/

/-- Python `needle in hay` substring test. -/
def hasSubstr (hay needle : Chars) : Bool :=
  needle.isPrefixOf hay ||
    match hay with
    | [] => false
    | _ :: t => hasSubstr t needle

def KEYWORDS : List Chars :=
  [("factura").data, ("invoice").data, ("subtotal").data, ("iva").data,
   ("total").data]

/-- Number of keywords occurring in the lower-cased text. -/
def keywordScore (text : Chars) : Nat :=
  (KEYWORDS.filter (fun w => hasSubstr (text.map pyLower) w)).length

/-- `DocumentClassifier.classify`. -/
def classify (text : Chars) : Chars :=
  if 2 ≤ keywordScore text then ("FACTURA").data else ("INFORMACION").data

/-! ## Regex building blocks

Specialised matchers for the source's patterns.  Each works on the suffix of
the text at the current position and returns the remainder after the match
(plus captures).  Greedy quantifiers whose character class is disjoint from
what can follow are implemented by maximal munch (backtracking provably
cannot help there); the quantifiers where backtracking is observable are
implemented with an explicit shrink loop mirroring the `re` engine. -/

/-- Case-insensitive literal (`re.IGNORECASE`): consume `w`, return rest. -/
def matchCI : Chars → Chars → Option Chars
  | [], s => some s
  | _ :: _, [] => none
  | w :: ws, c :: s => if pyLower c = pyLower w then matchCI ws s else none

/-- `\s+` followed by a token that cannot match whitespace: maximal munch. -/
def spaces1 : Chars → Option Chars
  | [] => none
  | c :: t => if pySpace c then some (t.dropWhile pySpace) else none

/-- The class `[:\-\s]` of the label separator patterns. -/
def sepClass (c : Char) : Bool := c = ':' ∨ c = '-' ∨ pySpace c

/-- The class `[\d.,]` of the amount captures. -/
def amtChar (c : Char) : Bool := c.isDigit ∨ c = '.' ∨ c = ','

/-- Backtracking loop for `[cls]+ REST`: `runRev` is the reversed consumed
class run (its length = number of consumed characters), `rest` the suffix
after it.  Tries the continuation, then gives characters back one at a time,
never below one consumed character — exactly the `re` engine's order for a
greedy `+` over a character class.  (For the source's `\s*[:\-\s]+`, `\s` is
contained in the class, so the stacked quantifiers consume one maximal class
run and their combined backtracking visits the same split positions in the
same first-success order as this single loop.) -/
def clsPlusGo (k : Chars → Option α) : Chars → Chars → Option α
  | [], _ => none
  | [_], rest => k rest
  | c :: rr, rest =>
    match k rest with
    | some a => some a
    | none => clsPlusGo k rr (c :: rest)

/-- `[cls]+` (greedy, with backtracking) followed by continuation `k`. -/
def clsPlus (cls : Char → Bool) (k : Chars → Option α) (s : Chars) : Option α :=
  if s.takeWhile cls = [] then none
  else clsPlusGo k (s.takeWhile cls).reverse (s.dropWhile cls)

/-- `\$?([\d.,]+)`: optional dollar sign, then the amount capture.  If `'$'`
is consumed and no amount follows, declining the `'$'` cannot help since
`'$'` is not an amount character, so no backtracking is needed. -/
def dollarAmt (s : Chars) : Option (Chars × Chars) :=
  let s1 := if s.head? = some '$' then s.tail else s
  let cap := s1.takeWhile amtChar
  if cap = [] then none else some (cap, s1.dropWhile amtChar)

/-- A sequence of case-insensitive literal words joined by `\s+` (the shape
of every multi-word label in the source's patterns).  `\s+` between letters
is safely maximal-munch since a letter is never whitespace. -/
def seqCI (words : List Chars) (s : Chars) : Option Chars :=
  match words with
  | [] => some s
  | w :: rest =>
    match matchCI w s with
    | none => none
    | some r =>
      match rest with
      | [] => some r
      | _ :: _ =>
        match spaces1 r with
        | none => none
        | some r2 => seqCI rest r2

/-! ### The total pattern (`InvoiceParser.parse` / `_extract_amount`)

`(?:total\s+de\s+la\s+factura|importe\s+total|total)\s*[:\-\s]+\$?([\d.,]+)`
with `re.IGNORECASE`, used through `re.findall`, taking the *last* capture. -/

/-- One attempt of the total pattern at the current position; alternatives
tried in the written order, each followed (with backtracking) by the
separator-and-amount tail. -/
def matchTotalAt (s : Chars) : Option (Chars × Chars) :=
  ((seqCI [("total").data, ("de").data, ("la").data, ("factura").data] s).bind
    (clsPlus sepClass dollarAmt)) <|>
  ((seqCI [("importe").data, ("total").data] s).bind
    (clsPlus sepClass dollarAmt)) <|>
  ((seqCI [("total").data] s).bind (clsPlus sepClass dollarAmt))

/-- `re.findall` scan for the total pattern: captures of the non-overlapping
matches, in document order (leftmost match first, resume after each match).
Structural recursion on a fuel that only ever needs to cover the remaining
length: a successful match strictly consumes input
(`matchTotalAt_length` below), and a failed attempt advances one
character, so `fuel = s.length` never runs out. -/
def findTotalsF : Nat → Chars → List Chars
  | 0, _ => []
  | _ + 1, [] => []
  | fuel + 1, c :: t =>
    match matchTotalAt (c :: t) with
    | some (cap, rem) => cap :: findTotalsF fuel rem
    | none => findTotalsF fuel t

def findTotals (s : Chars) : List Chars := findTotalsF s.length s

/-- `InvoiceParser._extract_amount` for the total pattern: last capture,
normalized; `None` when the pattern nowhere matches. -/
def extractAmount (text : Chars) : Option ℚ :=
  match (findTotals text).getLast? with
  | some v => normalizeAmount v
  | none => none

/-- `re.search`: leftmost position (end-of-text position included) at which
the attempt succeeds. -/
def scanFor (attempt : Chars → Option α) : Chars → Option α
  | [] => attempt []
  | c :: t => attempt (c :: t) <|> scanFor attempt t

/-! ## `InvoiceParser._extract_party_block`

```python
pattern = re.compile(
    rf"{label}\s*:\s*(.+?)(?=(?:cliente|proveedor|número\s+de\s+factura|numero\s+de\s+factura|número|numero|invoice\s+number|fecha|cantidad|total|descripción|descripcion|$))",
    re.IGNORECASE | re.DOTALL)
```
followed by whitespace collapsing, `.strip(" ,:")` and the name/address
split on the `cut_keywords` list. -/

/-- The boundary alternatives of the lookahead (order is irrelevant for a
pure existence test; `$` is the empty-remainder case). -/
def boundaryWords : List (List Chars) :=
  [[("cliente").data], [("proveedor").data],
   [("número").data, ("de").data, ("factura").data],
   [("numero").data, ("de").data, ("factura").data],
   [("número").data], [("numero").data],
   [("invoice").data, ("number").data],
   [("fecha").data], [("cantidad").data], [("total").data],
   [("descripción").data], [("descripcion").data]]

def boundaryAt (s : Chars) : Bool :=
  s.isEmpty || boundaryWords.any (fun w => (seqCI w s).isSome)

/-- `(.+?)(?=BOUNDARY)`: shortest non-empty prefix whose remainder starts a
boundary token (always defined since the empty remainder matches `$`). -/
def captureMin : Chars → Chars
  | [] => []
  | c :: t => c :: (if boundaryAt t then [] else captureMin t)

/-- One attempt of the party pattern at the current position: the label,
`\s*:`, then `\s*(.+?)`.  The second `\s*` is greedy; `.` matches any
character (DOTALL) so when at least one character follows the whitespace the
capture starts after the maximal whitespace run, and when the colon is
followed by whitespace only, backtracking the `\s*` by one leaves a single
space as the capture (the `$` lookahead alternative then holds). -/
def partyAttempt (label : Chars) (s : Chars) : Option Chars :=
  match matchCI label s with
  | none => none
  | some r =>
    match r.dropWhile pySpace with
    | ':' :: r3 =>
      if r3 = [] then none
      else
        if r3.dropWhile pySpace = [] then some [' ']
        else some (captureMin (r3.dropWhile pySpace))
    | _ => none

/-- Characters stripped by `.strip(" ,:")`. -/
def spaceCommaColon (c : Char) : Bool := c = ' ' ∨ c = ',' ∨ c = ':'

/-- Characters stripped by `.strip(" ,")`. -/
def spaceComma (c : Char) : Bool := c = ' ' ∨ c = ','

/-- `\b<word>\b` (for `Av.`/`Cl.` the trailing `\.?\b` imposes no further
condition on whether a match exists at a position: `'.'` is a non-word
character, so with or without the optional dot the boundary after the word
reduces to "next character after the word is absent or non-word").  All the
cut keywords start with a letter, so the leading `\b` reduces to "previous
character is absent or non-word". -/
def wordKwHit (w : Chars) (prev : Option Char) (s : Chars) : Bool :=
  (match prev with | none => true | some p => ¬ isWordC p) &&
  (match matchCI w s with
   | none => false
   | some rest =>
     match rest with
     | [] => true
     | d :: _ => ¬ isWordC d)

def findWordKwAux (w : Chars) (prev : Option Char) (i : Nat) :
    Chars → Option Nat
  | [] => none
  | c :: t =>
    if wordKwHit w prev (c :: t) then some i
    else findWordKwAux w (some c) (i + 1) t

/-- `re.search(rf"\b{word}\.?\b", block, re.IGNORECASE).start()`. -/
def findWordKw (w : Chars) (block : Chars) : Option Nat :=
  findWordKwAux w none 0 block

def findDigitAux (i : Nat) : Chars → Option Nat
  | [] => none
  | c :: t => if c.isDigit then some i else findDigitAux (i + 1) t

/-- `re.search(r"\d+\w*", block).start()`: first digit position. -/
def findDigitRunKw (block : Chars) : Option Nat := findDigitAux 0 block

/-- The `cut_keywords` list, in source order. -/
def kwFinders : List (Chars → Option Nat) :=
  [findWordKw (("av").data), findWordKw (("avenida").data),
   findWordKw (("calle").data), findWordKw (("carrera").data),
   findWordKw (("cl").data), findWordKw (("ruta").data),
   findWordKw (("boulevard").data), findDigitRunKw]

/-- The first searcher in list order that produces any result. -/
def firstSome (block : Chars) : List (Chars → Option Nat) → Option Nat
  | [] => none
  | f :: ft =>
    match f block with
    | some i => some i
    | none => firstSome block ft

/-- The `for kw in cut_keywords: ... break` loop: the first keyword in list
order that matches anywhere provides the split index. -/
def splitIndexKw (block : Chars) : Option Nat :=
  firstSome block kwFinders

def firstIdxAux (c : Char) (i : Nat) : Chars → Option Nat
  | [] => none
  | d :: t => if d = c then some i else firstIdxAux c (i + 1) t

/-- Split index including the comma fallback
(`if split_index is None and "," in block`). -/
def splitIndexFull (block : Chars) : Option Nat :=
  match splitIndexKw block with
  | some i => some i
  | none =>
    if block.contains ',' then firstIdxAux ',' 0 block else none

def optOfStr (l : Chars) : Option Chars := if l = [] then none else some l

structure PartyInfo where
  nombre : Option Chars
  direccion : Option Chars
deriving DecidableEq, Repr

/-- The name/address split applied to the cleaned block
(`{"nombre": nombre or None, "direccion": direccion or None}`). -/
def splitParty (block : Chars) : PartyInfo :=
  match splitIndexFull block with
  | some i =>
    { nombre := optOfStr (stripEnds spaceComma (block.take i)),
      direccion := optOfStr (stripEnds spaceComma (block.drop i)) }
  | none => { nombre := optOfStr block, direccion := none }

/-- `InvoiceParser._extract_party_block`. -/
def extractPartyBlock (text label : Chars) : Option PartyInfo :=
  match scanFor (partyAttempt label) text with
  | none => none
  | some cap => some (splitParty (stripEnds spaceCommaColon (collapseWs cap)))

/-! ## `InvoiceParser._extract_products`

```python
table_match = re.search(
    r"Cantidad\s+Producto.*?Total(.*?)(?:Total\s+de\s+la\s+factura|$)",
    text, re.IGNORECASE | re.DOTALL)
table_body = table_match.group(1) if table_match else text
pattern = re.compile(
    r"(\d+)\s+([A-Za-z0-9ÁÉÍÓÚÜÑáéíóúüñ\-\.\s]+)\s+\$?([\d.,]+)\s+\$?([\d.,]+)")
for qty, name, price, total in pattern.findall(table_body): ...
``` -/

/-- The class `[A-Za-z0-9ÁÉÍÓÚÜÑáéíóúüñ\-\.\s]` of the product-name group
(note: it contains whitespace, digits, `'-'` and `'.'`). -/
def isNameChar (c : Char) : Bool :=
  (('A' ≤ c ∧ c ≤ 'Z') ∨ ('a' ≤ c ∧ c ≤ 'z') ∨ c.isDigit) ∨
  (c = 'Á' ∨ c = 'É' ∨ c = 'Í' ∨ c = 'Ó' ∨ c = 'Ú' ∨ c = 'Ü' ∨ c = 'Ñ' ∨
   c = 'á' ∨ c = 'é' ∨ c = 'í' ∨ c = 'ó' ∨ c = 'ú' ∨ c = 'ü' ∨ c = 'ñ') ∨
  c = '-' ∨ c = '.' ∨ pySpace c

/-- `\s+\$?([\d.,]+)\s+\$?([\d.,]+)` after the name group.  Each `\s+` is
followed by `\$` or an amount character, never whitespace, so maximal munch
is exact; the optional dollars need no backtracking (see `dollarAmt`). -/
def restAfterName (s : Chars) : Option (Chars × Chars × Chars) :=
  (spaces1 s).bind (fun r1 =>
    (dollarAmt r1).bind (fun p3 =>
      (spaces1 p3.2).bind (fun r3 =>
        (dollarAmt r3).map (fun p4 => (p3.1, p4.1, p4.2)))))

/-- Like `clsPlusGo` but returning the characters the class run finally
consumed (in order) together with the continuation's result: the engine's
backtracking for a greedy captured `[cls]+`. -/
def clsPlusCapGo (k : Chars → Option α) : Chars → Chars → Option (Chars × α)
  | [], _ => none
  | [c], rest =>
    match k rest with
    | some a => some ([c], a)
    | none => none
  | c :: rr, rest =>
    match k rest with
    | some a => some ((c :: rr).reverse, a)
    | none => clsPlusCapGo k rr (c :: rest)

/-- Captured `([cls]+)` (greedy, with backtracking) then continuation `k`. -/
def clsPlusCap (cls : Char → Bool) (k : Chars → Option α) (s : Chars) :
    Option (Chars × α) :=
  if s.takeWhile cls = [] then none
  else clsPlusCapGo k (s.takeWhile cls).reverse (s.dropWhile cls)

/-- One attempt of the product pattern at the current position.
`(\d+)` is maximal munch (followed by `\s+`, and a digit can never rescue
it); the `\s+` after it and the name group genuinely backtrack (whitespace
is contained in the name class), in the engine's order: shrink the name
first, then the whitespace run. -/
def matchProdAt (s : Chars) : Option ((Chars × Chars × Chars × Chars) × Chars) :=
  if s.takeWhile Char.isDigit = [] then none
  else
    (clsPlus pySpace (clsPlusCap isNameChar restAfterName)
        (s.dropWhile Char.isDigit)).map
      (fun p => ((s.takeWhile Char.isDigit, p.1, p.2.1, p.2.2.1), p.2.2.2))

/-- `re.findall` scan for the product pattern, recording the absolute start
position of each non-overlapping match together with its four captures.
Fuel-structured like `findTotalsF`; a match strictly consumes
(`matchProdAt_length` below), so `fuel = s.length` never runs out. -/
def findProdsF : Nat → Nat → Chars → List (Nat × (Chars × Chars × Chars × Chars))
  | 0, _, _ => []
  | _ + 1, _, [] => []
  | fuel + 1, i, c :: t =>
    match matchProdAt (c :: t) with
    | some (g, rem) =>
      (i, g) :: findProdsF fuel (i + ((c :: t).length - rem.length)) rem
    | none => findProdsF fuel (i + 1) t

def findProds (i : Nat) (s : Chars) :
    List (Nat × (Chars × Chars × Chars × Chars)) :=
  findProdsF s.length i s

/-- `.*?Total` after the header words: skip minimally to the first
case-insensitive occurrence of the word, return the remainder after it. -/
def afterFirstCI (w : Chars) : Chars → Option Chars
  | [] => matchCI w []
  | c :: t =>
    match matchCI w (c :: t) with
    | some r => some r
    | none => afterFirstCI w t

/-- `(.*?)(?:Total\s+de\s+la\s+factura|$)`: characters up to the first
`total de la factura` (case-insensitive), or all of them. -/
def captureUntilTDLF : Chars → Chars
  | [] => []
  | c :: t =>
    if (seqCI [("total").data, ("de").data, ("la").data, ("factura").data]
        (c :: t)).isSome
    then [] else c :: captureUntilTDLF t

/-- One attempt of the table-header pattern
`Cantidad\s+Producto.*?Total(.*?)(?:Total\s+de\s+la\s+factura|$)`.  The
suffix after `.*?Total` always matches (the `$` alternative), so the
minimal skip is committed. -/
def headerAttempt (s : Chars) : Option Chars :=
  match seqCI [("cantidad").data, ("producto").data] s with
  | none => none
  | some r =>
    match afterFirstCI (("total").data) r with
    | none => none
    | some r2 => some (captureUntilTDLF r2)

/-- `table_body`: the header capture if the header matches, else the whole
text. -/
def tableBody (text : Chars) : Chars :=
  match scanFor headerAttempt text with
  | some body => body
  | none => text

structure ProductoItem where
  cantidad : ℚ
  nombre : Chars
  precio_unitario : Option ℚ
  total : Option ℚ
deriving DecidableEq, Repr

def prodMatches (text : Chars) : List (Nat × (Chars × Chars × Chars × Chars)) :=
  findProds 0 (tableBody text)

/-- `InvoiceParser._extract_products`: one `ProductoItem` per match, in
match order (`cantidad=float(qty)`, `nombre=name.strip()`, prices
normalized). -/
def extractProducts (text : Chars) : List ProductoItem :=
  (prodMatches text).map (fun m =>
    { cantidad := mkRat (natOfDigits m.2.1) 1,
      nombre := pyStrip m.2.2.1,
      precio_unitario := normalizeAmount m.2.2.2.1,
      total := normalizeAmount m.2.2.2.2 })

/-! ## `InvoiceParser._extract_field` for `numero` and `fecha` -/

/-- The class `[A-Z0-9\-]` under `re.IGNORECASE`. -/
def numChar (c : Char) : Bool :=
  ('A' ≤ c ∧ c ≤ 'Z') ∨ ('a' ≤ c ∧ c ≤ 'z') ∨ c.isDigit ∨ c = '-'

/-- A captured `([cls]+)` with nothing after it: maximal munch is exact. -/
def capCls (cls : Char → Bool) (s : Chars) : Option (Chars × Chars) :=
  if s.takeWhile cls = [] then none
  else some (s.takeWhile cls, s.dropWhile cls)

/-- One attempt of
`(?:número\s+de\s+factura|invoice\s+number)\s*[:\-\s]+([A-Z0-9\-]+)`. -/
def numeroAttempt (s : Chars) : Option (Chars × Chars) :=
  ((seqCI [("número").data, ("de").data, ("factura").data] s).bind
    (clsPlus sepClass (capCls numChar))) <|>
  ((seqCI [("invoice").data, ("number").data] s).bind
    (clsPlus sepClass (capCls numChar)))

/-- `match.group(1).strip()` of the first `numero` match. -/
def extractNumero (text : Chars) : Option Chars :=
  (scanFor numeroAttempt text).map (fun p => pyStrip p.1)

def sepDM (c : Char) : Bool := c = '/' ∨ c = '-'

/-- `[0-9]{1,2}` (greedy: two digits if possible, falling back to one)
followed by the continuation. -/
def tryDM (s : Chars) (k : Chars → Chars → Option α) : Option α :=
  match s with
  | [] => none
  | [c1] => if c1.isDigit then k [c1] [] else none
  | c1 :: c2 :: r =>
    if c1.isDigit then
      if c2.isDigit then
        match k [c1, c2] r with
        | some a => some a
        | none => k [c1] (c2 :: r)
      else k [c1] (c2 :: r)
    else none

/-- `[0-9]{2,4}` at the end of the capture: greedy two-to-four digits with
nothing following, hence max four of the available run, needing at least
two. -/
def yearCap (s : Chars) : Option (Chars × Chars) :=
  if (s.takeWhile Char.isDigit).length < 2 then none
  else
    some ((s.takeWhile Char.isDigit).take 4,
      s.drop (min 4 (s.takeWhile Char.isDigit).length))

/-- The date capture `([0-9]{1,2}[\/\-][0-9]{1,2}[\/\-][0-9]{2,4})`,
returning (capture, remainder). -/
def dateCap (s : Chars) : Option (Chars × Chars) :=
  tryDM s (fun d1 r1 =>
    match r1 with
    | [] => none
    | c1 :: r2 =>
      if sepDM c1 then
        tryDM r2 (fun d2 r3 =>
          match r3 with
          | [] => none
          | c2 :: r4 =>
            if sepDM c2 then
              (yearCap r4).map
                (fun p => (d1 ++ [c1] ++ d2 ++ [c2] ++ p.1, p.2))
            else none)
      else none)

/-- One attempt of
`(?:fecha|date)\s*[:\-\s]+([0-9]{1,2}[\/\-][0-9]{1,2}[\/\-][0-9]{2,4})`. -/
def fechaAttempt (s : Chars) : Option (Chars × Chars) :=
  ((matchCI (("fecha").data) s).bind (clsPlus sepClass dateCap)) <|>
  ((matchCI (("date").data) s).bind (clsPlus sepClass dateCap))

/-- `match.group(1).strip()` of the first `fecha` match. -/
def extractFecha (text : Chars) : Option Chars :=
  (scanFor fechaAttempt text).map (fun p => pyStrip p.1)

/-! ## `InvoiceParser.parse` -/

structure FacturaData where
  cliente : Option PartyInfo
  proveedor : Option PartyInfo
  numero : Option Chars
  fecha : Option Chars
  productos : List ProductoItem
  total : Option ℚ
deriving DecidableEq, Repr

/-- `InvoiceParser.parse`. -/
def parseInvoice (text : Chars) : FacturaData :=
  { cliente := extractPartyBlock text (("cliente").data),
    proveedor := extractPartyBlock text (("proveedor").data),
    numero := extractNumero text,
    fecha := extractFecha text,
    productos := extractProducts text,
    total := extractAmount text }

/-! ## `ValidationService` (`app/services/validation.py`) -/

structure Finding where
  name : Chars
  status : Chars
  details : Option Chars
deriving DecidableEq, Repr

/-- A parsed CSV row: ordered (column, value) pairs; a value may be absent
(`None`) or the empty string. -/
abbrev Row := List (Chars × Option Chars)

/-- `[k for k, v in row.items() if v in ("", None)]`. -/
def missingCols (row : Row) : List Chars :=
  (row.filter (fun kv => kv.2 = Option.none ∨ kv.2 = some [])).map Prod.fst

def natDigits (n : Nat) : Chars := Nat.toDigits 10 n

/-- `sep.join(parts)`. -/
def joinSep (sep : Chars) : List Chars → Chars
  | [] => []
  | [x] => x
  | x :: y :: t => x ++ sep ++ joinSep sep (y :: t)

/-- `ValidationService.check_missing`. -/
def checkMissing (rows : List Row) : Finding :=
  let offenders := (List.enumFrom 1 rows).filter (fun p => missingCols p.2 ≠ [])
  if offenders = [] then
    { name := ("valores_vacios").data, status := ("OK").data,
      details := Option.none }
  else
    { name := ("valores_vacios").data, status := ("WARN").data,
      details := some (joinSep (("; ").data) (offenders.map (fun p =>
        ("fila ").data ++ natDigits p.1 ++ (": ").data ++
          joinSep ([(',' : Char)]) (missingCols p.2)))) }

/-- Python string comparison (code-point lexicographic), as a Bool `≤`. -/
def lexLe : Chars → Chars → Bool
  | [], _ => true
  | _ :: _, [] => false
  | a :: as, b :: bs => if a = b then lexLe as bs else decide (a < b)

/-- `tuple(sorted(row.items()))`: the row's items sorted by column name
(keys of one dict are distinct, so the tuple comparison never reaches the
values; `List.insertionSort` is stable like Python's sort). -/
def serializeRow (row : Row) : Row :=
  List.insertionSort (fun a b => lexLe a.1 b.1) row

/-- `ValidationService.check_duplicates`. -/
def checkDuplicates (rows : List Row) : Finding :=
  let serialized := rows.map serializeRow
  let dups := (serialized.dedup.filter (fun v => 1 < serialized.count v)).length
  if dups = 0 then
    { name := ("duplicados").data, status := ("OK").data,
      details := Option.none }
  else
    { name := ("duplicados").data, status := ("WARN").data,
      details := some (natDigits dups ++ (" filas repetidas").data) }

/-- `ValidationService.run_all`. -/
def runAll (rows : List Row) : List Finding :=
  if rows = [] then
    [{ name := ("contenido").data, status := ("ERROR").data,
       details := some (("El archivo está vacío").data) }]
  else [checkMissing rows, checkDuplicates rows]

/-! ## `InformationAnalyzer` and `DocumentAnalyzerService.analyze`

The summarisation and sentiment pipelines are external collaborators
(`transformers` models); the spec treats them as pure functions
text → text, and they are passed as parameters here.  Likewise the storage
upload is an external collaborator whose outcome (a key, or the
`RuntimeError` that `S3StorageService.upload` raises when the backend
fails, storage.py lines 19–25) is a parameter. -/

structure InformacionData where
  descripcion : Chars
  resumen : Chars
  sentimiento : Chars
deriving DecidableEq, Repr

/-- `InformationAnalyzer.analyze` (with `_build_summary` and
`_detect_sentiment` inlined). -/
def analyzeInformation (sumP sentP : Chars → Chars) (text : Chars) :
    InformacionData :=
  let descripcion := text.take 400
  { descripcion := descripcion,
    resumen := if pyStrip descripcion = [] then [] else sumP descripcion,
    sentimiento :=
      if pyStrip descripcion = [] then ("neutral").data
      else
        let raw := (sentP (descripcion.take 512)).map pyUpper
        if raw = ("POSITIVE").data then ("positivo").data
        else if raw = ("NEGATIVE").data then ("negativo").data
        else ("neutral").data }

structure DocumentAnalysisResult where
  document_type : Chars
  factura : Option FacturaData
  informacion : Option InformacionData
  raw_text : Chars
deriving DecidableEq, Repr

/-- A Python value as it can appear in the orchestrator's `summary`
variable: `None`, a float, or a string (`parsed.total and f"..."` does not
always produce a string). -/
inductive PyVal where
  | none : PyVal
  | float : ℚ → PyVal
  | str : Chars → PyVal
deriving DecidableEq, Repr

def pyTruthy : PyVal → Bool
  | .none => false
  | .float q => q ≠ 0
  | .str s => s ≠ []

/-- Python `a and b`. -/
def pyAnd (a b : PyVal) : PyVal := if pyTruthy a then b else a

/-- `repr`/`str` of a Python float whose value is an exactly-representable
decimal (the only floats this pipeline produces): integer part, `'.'`,
fraction with trailing zeros removed, at least one fractional digit.
(Values outside `[1e-4, 1e16)` would use scientific notation in Python;
the claims do not depend on that regime.) -/
def pyReprFloat (q : ℚ) : Chars :=
  let sign : Chars := if q < 0 then [('-' : Char)] else []
  let n := q.num.natAbs
  let d := q.den
  match (List.range 40).find? (fun e => 10 ^ e % d = 0) with
  | some e =>
    let scaled := n * 10 ^ e / d
    let fpRaw := Nat.toDigits 10 (scaled % 10 ^ e)
    let fpPadded := List.replicate (e - fpRaw.length) '0' ++ fpRaw
    let fpTrimmed := (fpPadded.reverse.dropWhile (fun c => c = '0')).reverse
    sign ++ Nat.toDigits 10 (scaled / 10 ^ e) ++ [('.' : Char)] ++
      (if fpTrimmed = [] then [('0' : Char)] else fpTrimmed)
  | Option.none => sign ++ Nat.toDigits 10 n ++ [('/' : Char)] ++ Nat.toDigits 10 d

/-- The f-string `f"Factura con total estimado {parsed.total}"`. -/
def facturaMsg (q : ℚ) : Chars :=
  (("Factura con total estimado ")).data ++ pyReprFloat q

/-- The arguments the orchestrator passes to
`repository.save_analysis` (the persisted record). -/
structure SavedRecord where
  filename : Chars
  document_type : Chars
  s3_key : Option Chars
  payload : DocumentAnalysisResult
  ai_summary : PyVal
  sentiment : Option Chars
deriving DecidableEq, Repr

/-- The external collaborators of `DocumentAnalyzerService.analyze`. -/
structure AnalyzeDeps where
  summaryPipe : Chars → Chars
  sentimentPipe : Chars → Chars
  uploadResult : Except Unit Chars

/-- `DocumentAnalyzerService.analyze`, downstream of the extraction backend:
`rawText` is the text the PDF/Textract backend produced (`extract`
sanitizes it before returning).  In the FACTURA branch,
`summary = parsed.total and f"Factura con total estimado {parsed.total}"`:
the f-string is only evaluated when `parsed.total` is truthy, so passing
`parsed.total.getD 0` to the message builder is unobservable when the total
is absent.  The `try/except RuntimeError` around the upload maps the error
outcome to an absent key. -/
def analyzeModel (deps : AnalyzeDeps) (filename rawText : Chars) :
    SavedRecord × DocumentAnalysisResult :=
  let text := sanitize rawText
  let documentType := classify text
  let branch : DocumentAnalysisResult × Option Chars × PyVal :=
    if documentType = ("FACTURA").data then
      let parsed := parseInvoice text
      (⟨documentType, some parsed, Option.none, text⟩,
        Option.none,
        pyAnd
          (match parsed.total with
           | Option.none => PyVal.none
           | some q => PyVal.float q)
          (PyVal.str (facturaMsg (parsed.total.getD 0))))
    else
      let parsed := analyzeInformation deps.summaryPipe deps.sentimentPipe text
      (⟨documentType, Option.none, some parsed, text⟩,
        some parsed.sentimiento, PyVal.str parsed.resumen)
  let s3Key : Option Chars :=
    match deps.uploadResult with
    | Except.ok k => some k
    | Except.error _ => Option.none
  ({ filename := filename, document_type := documentType, s3_key := s3Key,
     payload := branch.1, ai_summary := branch.2.2, sentiment := branch.2.1 },
    branch.1)


/-! ## Consumption lemmas: every successful match strictly consumes input
(these justify that `fuel = length` suffices for the scanners) -/

theorem length_dropWhile_le (p : Char → Bool) (l : Chars) :
    (l.dropWhile p).length ≤ l.length := by
  induction l with
  | nil => simp [List.dropWhile]
  | cons c t ih =>
    rw [List.dropWhile]
    split
    · exact le_trans ih (by simp)
    · simp

theorem length_takeWhile_add_dropWhile (p : Char → Bool) (l : Chars) :
    (l.takeWhile p).length + (l.dropWhile p).length = l.length := by
  conv_rhs => rw [← @List.takeWhile_append_dropWhile _ p l]
  rw [List.length_append]

theorem matchCI_length {w s r : Chars} (h : matchCI w s = some r) :
    r.length ≤ s.length := by
  induction w generalizing s with
  | nil =>
    simp only [matchCI, Option.some.injEq] at h
    subst h
    exact le_refl _
  | cons c ws ih =>
    cases s with
    | nil => simp [matchCI] at h
    | cons d t =>
      simp only [matchCI] at h
      split at h
      · exact le_trans (ih h) (by simp)
      · exact absurd h (by simp)

theorem spaces1_length {s r : Chars} (h : spaces1 s = some r) :
    r.length < s.length := by
  cases s with
  | nil => simp [spaces1] at h
  | cons c t =>
    simp only [spaces1] at h
    split at h
    · cases h
      exact lt_of_le_of_lt (length_dropWhile_le _ _) (by simp)
    · exact absurd h (by simp)

theorem dollarAmt_length {s : Chars} {cap r : Chars}
    (h : dollarAmt s = some (cap, r)) : r.length < s.length := by
  have hsplit : ∀ s1 : Chars, s1.length ≤ s.length →
      ((if s1.takeWhile amtChar = [] then none
        else some (s1.takeWhile amtChar, s1.dropWhile amtChar))
          = some (cap, r)) → r.length < s.length := by
    intro s1 hs1 h
    split at h
    · exact absurd h (by simp)
    · rename_i hne
      rw [Option.some.injEq, Prod.mk.injEq] at h
      obtain ⟨-, h2⟩ := h
      have hlen := length_takeWhile_add_dropWhile amtChar s1
      have hpos : 0 < (s1.takeWhile amtChar).length := List.length_pos.mpr hne
      subst h2
      omega
  unfold dollarAmt at h
  split at h
  · rename_i hh
    cases s with
    | nil => simp at hh
    | cons c t => exact hsplit t (by simp) h
  · exact hsplit s (le_refl _) h

theorem clsPlusGo_length {α : Type} (k : Chars → Option α) (m : α → Nat)
    (hk : ∀ t a, k t = some a → m a < t.length) :
    ∀ runRev rest a, clsPlusGo k runRev rest = some a →
      m a < runRev.length + rest.length := by
  intro runRev
  induction runRev with
  | nil =>
    intro rest a h
    simp [clsPlusGo] at h
  | cons c rr ih =>
    intro rest a h
    cases rr with
    | nil =>
      rw [show clsPlusGo k [c] rest = k rest from rfl] at h
      have := hk _ _ h
      simp
      omega
    | cons d rr' =>
      rw [show clsPlusGo k (c :: d :: rr') rest
          = (match k rest with
             | some a => some a
             | none => clsPlusGo k (d :: rr') (c :: rest)) from rfl] at h
      cases hkr : k rest with
      | some b =>
        rw [hkr] at h
        cases h
        have := hk _ _ hkr
        simp
        omega
      | none =>
        rw [hkr] at h
        have := ih (c :: rest) a h
        simp at this ⊢
        omega

theorem clsPlus_length {α : Type} (cls : Char → Bool) (k : Chars → Option α)
    (m : α → Nat) (hk : ∀ t a, k t = some a → m a < t.length)
    {s : Chars} {a : α} (h : clsPlus cls k s = some a) : m a < s.length := by
  unfold clsPlus at h
  split at h
  · exact absurd h (by simp)
  · have := clsPlusGo_length k m hk _ _ _ h
    have hlen := length_takeWhile_add_dropWhile cls s
    simp only [List.length_reverse] at this
    omega

theorem seqCI_length {ws : List Chars} {s r : Chars}
    (h : seqCI ws s = some r) : r.length ≤ s.length := by
  induction ws generalizing s with
  | nil =>
    simp only [seqCI, Option.some.injEq] at h
    subst h
    exact le_refl _
  | cons w rest ih =>
    unfold seqCI at h
    split at h
    · exact absurd h (by simp)
    · rename_i r1 h1
      have hr1 := matchCI_length h1
      split at h
      · simp only [Option.some.injEq] at h
        subst h
        exact hr1
      · split at h
        · exact absurd h (by simp)
        · rename_i r2 h2
          have hr2 := spaces1_length h2
          have := ih h
          omega

/-- `[:\-\s]+\$?([\d.,]+)` (with backtracking) strictly consumes. -/
theorem sepAmtTail_length {t cap rem : Chars}
    (h : clsPlus sepClass dollarAmt t = some (cap, rem)) :
    rem.length < t.length := by
  exact clsPlus_length sepClass dollarAmt (fun p => p.2.length)
    (fun u a ha => by obtain ⟨x, y⟩ := a; exact dollarAmt_length ha) h

theorem seqTail_length {ws : List Chars} {s cap rem : Chars}
    (h : (seqCI ws s).bind (clsPlus sepClass dollarAmt) = some (cap, rem)) :
    rem.length < s.length := by
  cases hl : seqCI ws s with
  | none => rw [hl] at h; simp at h
  | some r =>
    rw [hl] at h
    rw [show (some r).bind (clsPlus sepClass dollarAmt)
        = clsPlus sepClass dollarAmt r from rfl] at h
    have h1 := seqCI_length hl
    have h2 := sepAmtTail_length h
    omega

theorem matchTotalAt_length {s : Chars} {cap rem : Chars}
    (h : matchTotalAt s = some (cap, rem)) : rem.length < s.length := by
  unfold matchTotalAt at h
  rcases ho : (seqCI [("total").data, ("de").data, ("la").data,
      ("factura").data] s).bind (clsPlus sepClass dollarAmt) with _ | v
  · rw [ho] at h
    simp only [Option.none_orElse] at h
    rcases ho2 : (seqCI [("importe").data, ("total").data] s).bind
        (clsPlus sepClass dollarAmt) with _ | v2
    · rw [ho2] at h
      simp only [Option.none_orElse] at h
      exact seqTail_length h
    · rw [ho2] at h
      simp only [Option.some_orElse] at h
      cases h
      exact seqTail_length ho2
  · rw [ho] at h
    simp only [Option.some_orElse] at h
    cases h
    exact seqTail_length ho

theorem restAfterName_length {s g3 g4 rem : Chars}
    (h : restAfterName s = some (g3, g4, rem)) : rem.length < s.length := by
  unfold restAfterName at h
  cases h1 : spaces1 s with
  | none => rw [h1] at h; simp at h
  | some r1 =>
    rw [h1] at h
    simp only [Option.some_bind'] at h
    cases h2 : dollarAmt r1 with
    | none => rw [h2] at h; simp at h
    | some p3 =>
      rw [h2] at h
      simp only [Option.some_bind'] at h
      cases h3 : spaces1 p3.2 with
      | none => rw [h3] at h; simp at h
      | some r3 =>
        rw [h3] at h
        simp only [Option.some_bind'] at h
        cases h4 : dollarAmt r3 with
        | none => rw [h4] at h; simp at h
        | some p4 =>
          rw [h4] at h
          simp only [Option.map_some', Option.some.injEq,
            Prod.mk.injEq] at h
          obtain ⟨-, -, hr⟩ := h
          subst hr
          have h2e : dollarAmt r1 = some (p3.1, p3.2) := by rw [h2]
          have h4e : dollarAmt r3 = some (p4.1, p4.2) := by rw [h4]
          have := spaces1_length h1
          have := dollarAmt_length h2e
          have := spaces1_length h3
          have := dollarAmt_length h4e
          omega

theorem clsPlusCapGo_length {α : Type} (k : Chars → Option α) (m : α → Nat)
    (hk : ∀ t a, k t = some a → m a < t.length) :
    ∀ runRev rest cap a, clsPlusCapGo k runRev rest = some (cap, a) →
      m a < runRev.length + rest.length := by
  intro runRev
  induction runRev with
  | nil =>
    intro rest cap a h
    simp [clsPlusCapGo] at h
  | cons c rr ih =>
    intro rest cap a h
    cases rr with
    | nil =>
      rw [show clsPlusCapGo k [c] rest
          = (match k rest with
             | some a => some ([c], a)
             | none => none) from rfl] at h
      cases hkr : k rest with
      | some b =>
        rw [hkr] at h
        simp only [Option.some.injEq, Prod.mk.injEq] at h
        obtain ⟨-, ha⟩ := h
        subst ha
        have := hk _ _ hkr
        simp
        omega
      | none => rw [hkr] at h; simp at h
    | cons d rr' =>
      rw [show clsPlusCapGo k (c :: d :: rr') rest
          = (match k rest with
             | some a => some ((c :: d :: rr').reverse, a)
             | none => clsPlusCapGo k (d :: rr') (c :: rest)) from rfl] at h
      cases hkr : k rest with
      | some b =>
        rw [hkr] at h
        simp only [Option.some.injEq, Prod.mk.injEq] at h
        obtain ⟨-, ha⟩ := h
        subst ha
        have := hk _ _ hkr
        simp
        omega
      | none =>
        rw [hkr] at h
        have := ih (c :: rest) cap a h
        simp at this ⊢
        omega

theorem clsPlusCap_length {α : Type} (cls : Char → Bool) (k : Chars → Option α)
    (m : α → Nat) (hk : ∀ t a, k t = some a → m a < t.length)
    {s : Chars} {cap : Chars} {a : α}
    (h : clsPlusCap cls k s = some (cap, a)) : m a < s.length := by
  unfold clsPlusCap at h
  split at h
  · exact absurd h (by simp)
  · have := clsPlusCapGo_length k m hk _ _ _ _ h
    have hlen := length_takeWhile_add_dropWhile cls s
    simp only [List.length_reverse] at this
    omega

theorem matchProdAt_length {s : Chars} {g : Chars × Chars × Chars × Chars}
    {rem : Chars} (h : matchProdAt s = some (g, rem)) :
    rem.length < s.length := by
  unfold matchProdAt at h
  split at h
  · exact absurd h (by simp)
  · rename_i hq
    cases hp : clsPlus pySpace (clsPlusCap isNameChar restAfterName)
        (s.dropWhile Char.isDigit) with
    | none => rw [hp] at h; simp at h
    | some p =>
      rw [hp] at h
      simp only [Option.map_some', Option.some.injEq, Prod.mk.injEq] at h
      obtain ⟨-, hr⟩ := h
      have hinner : p.2.2.2.length < (s.dropWhile Char.isDigit).length := by
        refine clsPlus_length pySpace _ (fun q => q.2.2.2.length) ?_ hp
        intro t a ha
        exact clsPlusCap_length isNameChar restAfterName
          (fun q => q.2.2.length)
          (fun u b hb =>
            restAfterName_length
              (show restAfterName u = some (b.1, b.2.1, b.2.2) from hb)) ha
      have hq' : 0 < (s.takeWhile Char.isDigit).length :=
        List.length_pos.mpr hq
      have hlen := length_takeWhile_add_dropWhile Char.isDigit s
      have hre : p.2.2.2.length = rem.length := by rw [hr]
      omega

/-! ## Claim C1 -/

/-- C1: in `parse_invoice`, the total is extracted from the matches of the
label pattern `(total de la factura|importe total|total)` followed by an
amount token, and whenever the pattern matches at all (in particular when it
matches more than once), the capture of the *last* match in document order
is the one that is normalized and returned as the invoice total. -/
theorem c1_total_last_match_wins (text v : Chars)
    (hmult : 2 ≤ (findTotals text).length)
    (hlast : (findTotals text).getLast? = some v) :
    (parseInvoice text).total = normalizeAmount v := by
  show extractAmount text = normalizeAmount v
  unfold extractAmount
  rw [hlast]

def c1text : Chars := (("Subtotal: $100 Total de la factura: $150.00")).data

/-- C1 witness: the spec's scenario.  The pattern matches twice (`total`
inside `Subtotal` captures `100`; `Total de la factura` captures `150.00`),
and the parsed total is the last match's `150.00`, i.e. `150.0 ≠ 100.0`. -/
theorem c1_total_last_match_wins_witness :
    (2 ≤ (findTotals c1text).length ∧
      (findTotals c1text).getLast? = some ((("150.00")).data)) ∧
    (parseInvoice c1text).total = some (150 : ℚ) ∧ (150 : ℚ) ≠ (100 : ℚ) := by
  refine ⟨⟨by decide, by decide⟩, ?_, by norm_num⟩
  rw [c1_total_last_match_wins c1text ((("150.00")).data) (by decide) (by decide)]
  decide

/-! ## Claim C2 -/

theorem takeWhile_all_append {p : Char → Bool} {a l : Chars}
    (ha : ∀ c ∈ a, p c) : (a ++ l).takeWhile p = a ++ l.takeWhile p := by
  induction a with
  | nil => simp
  | cons c t ih =>
    simp only [List.cons_append, List.takeWhile_cons]
    rw [ha c (by simp)]
    simp only [if_true]
    rw [ih (fun d hd => ha d (by simp [hd]))]

theorem dropWhile_all_append {p : Char → Bool} {a l : Chars}
    (ha : ∀ c ∈ a, p c) : (a ++ l).dropWhile p = l.dropWhile p := by
  induction a with
  | nil => simp
  | cons c t ih =>
    simp only [List.cons_append, List.dropWhile_cons]
    rw [ha c (by simp)]
    simp only [if_true]
    exact ih (fun d hd => ha d (by simp [hd]))

/-- `float` on a `digits '.' digits` string. -/
theorem parseFloatQ_digits_dot_digits (a b : Chars)
    (ha : ∀ c ∈ a, c.isDigit) (hb : ∀ c ∈ b, c.isDigit)
    (hne : a ≠ [] ∨ b ≠ []) :
    parseFloatQ (a ++ '.' :: b) =
      some (mkRat (natOfDigits a * 10 ^ b.length + natOfDigits b)
        (10 ^ b.length)) := by
  have hdot : ('.' : Char).isDigit = false := by decide
  have ht : (a ++ '.' :: b).takeWhile Char.isDigit = a := by
    rw [takeWhile_all_append ha, List.takeWhile_cons, hdot]
    simp
  have hd : (a ++ '.' :: b).dropWhile Char.isDigit = '.' :: b := by
    rw [dropWhile_all_append ha, List.dropWhile_cons, hdot]
    simp
  unfold parseFloatQ
  rw [ht, hd]
  simp only []
  rw [if_pos ⟨List.all_eq_true.mpr (fun c hc => hb c hc), hne⟩]

/-- C2 (amended): for amount strings in the European *comma-decimal without
thousands groups* form `\d{1,3},\d{2}`, `normalize_amount` returns the
value obtained by reading the comma as the decimal point.  (The original
claim's full pattern `\d{1,3}(\.\d{3})*,\d{2}` fails on the code as soon as
a thousands group is present — see the counterexample — because a string
containing both `.` and `,` takes the "comma is a thousands separator"
branch.) -/
theorem map_eq_self_of {f : Char → Char} : ∀ l : Chars,
    (∀ c ∈ l, f c = c) → l.map f = l := by
  intro l hl
  induction l with
  | nil => rfl
  | cons c t ih =>
    simp only [List.map_cons]
    rw [hl c (by simp), ih (fun d hd => hl d (by simp [hd]))]

theorem c2_euro_decimal_comma (a b : Chars)
    (ha1 : a ≠ []) (ha2 : a.length ≤ 3) (ha3 : ∀ c ∈ a, c.isDigit)
    (hb1 : b.length = 2) (hb3 : ∀ c ∈ b, c.isDigit) :
    normalizeAmount (a ++ ',' :: b) =
      some ((natOfDigits a : ℚ) + (natOfDigits b : ℚ) / 100) := by
  have hmemdig : ∀ c ∈ a ++ ',' :: b, c.isDigit ∨ c = ',' := by
    intro c hc
    rcases List.mem_append.mp hc with h | h
    · exact Or.inl (ha3 c h)
    · rcases List.mem_cons.mp h with h | h
      · exact Or.inr h
      · exact Or.inl (hb3 c h)
  have hne : a ++ ',' :: b ≠ [] := by
    intro h
    exact ha1 (List.append_eq_nil.mp h).1
  have hnotdollar : ∀ c ∈ a ++ ',' :: b, (decide (c ≠ '$')) = true := by
    intro c hc
    rcases hmemdig c hc with h | h
    · simp only [decide_eq_true_eq, ne_eq]
      intro hcs
      rw [hcs] at h
      exact absurd h (by decide)
    · rw [h]
      decide
  have hnotspace : ∀ c ∈ a ++ ',' :: b, (decide (c ≠ ' ')) = true := by
    intro c hc
    rcases hmemdig c hc with h | h
    · simp only [decide_eq_true_eq, ne_eq]
      intro hcs
      rw [hcs] at h
      exact absurd h (by decide)
    · rw [h]
      decide
  have hclean : cleanAmount (a ++ ',' :: b) = a ++ ',' :: b := by
    unfold cleanAmount
    rw [List.filter_eq_self.mpr hnotdollar, List.filter_eq_self.mpr hnotspace]
  have hcomma : (a ++ ',' :: b).contains ',' = true :=
    List.elem_eq_true_of_mem (List.mem_append_right a (List.mem_cons_self _ _))
  have hdotmem : ('.' : Char) ∉ a ++ ',' :: b := by
    intro hmem
    rcases hmemdig '.' hmem with hx | hx
    · exact absurd hx (by decide)
    · exact absurd hx (by decide)
  have hnodot : (a ++ ',' :: b).contains '.' = false := by
    cases hcd : (a ++ ',' :: b).contains '.'
    · rfl
    · exact absurd (List.mem_of_elem_eq_true hcd) hdotmem
  have hmap : (a ++ ',' :: b).map (fun c => if c = ',' then '.' else c)
      = a ++ '.' :: b := by
    rw [List.map_append]
    congr 1
    · refine map_eq_self_of a (fun c hc => ?_)
      have hd := ha3 c hc
      rw [if_neg]
      intro hcc
      rw [hcc] at hd
      exact absurd hd (by decide)
    · simp only [List.map_cons, if_pos rfl]
      congr 1
      refine map_eq_self_of b (fun c hc => ?_)
      have hd := hb3 c hc
      rw [if_neg]
      intro hcc
      rw [hcc] at hd
      exact absurd hd (by decide)
  have hcond1 : ¬((a ++ ',' :: b).contains ',' = true ∧
      (a ++ ',' :: b).contains '.' = true) := by
    rw [hnodot]
    intro h
    exact absurd h.2 (by simp)
  have hcond2 : (a ++ ',' :: b).contains ',' = true ∧
      ¬ (a ++ ',' :: b).contains '.' = true := by
    rw [hcomma, hnodot]
    exact ⟨rfl, by simp⟩
  have hbranch : branchAmount (a ++ ',' :: b) = a ++ '.' :: b := by
    unfold branchAmount
    rw [if_neg hcond1, if_pos hcond2, hmap]
  unfold normalizeAmount
  rw [if_neg hne, hclean, hbranch,
    parseFloatQ_digits_dot_digits a b ha3 hb3 (Or.inl ha1), hb1]
  show some _ = some _
  congr 1
  rw [Rat.mkRat_eq_div]
  push_cast
  rw [add_div, mul_div_assoc]
  norm_num

/-- C2 counterexample: `"1.234,56"` matches the claim's pattern
`\d{1,3}(\.\d{3})*,\d{2}` but normalizes to `1.23456` (the code removes the
comma because both separators are present and `float("1.23456")` succeeds),
not to the claimed `1234.56`. -/
theorem c2_counterexample :
    normalizeAmount ((("1.234,56")).data) = some (mkRat 123456 100000) ∧
    normalizeAmount ((("1.234,56")).data) ≠ some (mkRat 123456 100) ∧
    (1234.56 : ℚ) = mkRat 123456 100 ∧ (1.23456 : ℚ) = mkRat 123456 100000 := by
  refine ⟨by decide, by decide, ?_, ?_⟩
  · rw [Rat.mkRat_eq_div]
    norm_num
  · rw [Rat.mkRat_eq_div]
    norm_num

/-- C2 witness for the amended theorem, at the spec's own example
`"300,00" → 300.0` (and `"135,75" → 135.75` follows the same way). -/
theorem c2_euro_decimal_comma_witness :
    normalizeAmount ((("300,00")).data) = some (300 : ℚ) := by
  have h := c2_euro_decimal_comma ((("300")).data) ((("00")).data)
    (by decide) (by decide) (by decide) (by decide) (by decide)
  have e1 : natOfDigits ((("300")).data) = 300 := by decide
  have e2 : natOfDigits ((("00")).data) = 0 := by decide
  rw [e1, e2] at h
  rw [show (("300,00")).data = (("300")).data ++ ',' :: (("00")).data from rfl,
    h]
  norm_num

/-! ## Claim C5 -/

/-- C5: `classify` returns FACTURA iff at least two distinct keywords of the
fixed set occur case-insensitively as substrings of the text, and
INFORMACION otherwise; with the spec's two examples. -/
theorem c5_classify_iff :
    (∀ text : Chars, classify text = ("FACTURA").data ↔
        2 ≤ (KEYWORDS.filter (fun w => hasSubstr (text.map pyLower) w)).length) ∧
    KEYWORDS.Nodup ∧
    classify ((("Subtotal: 10 Total: 12")).data) = ("FACTURA").data ∧
    classify ((("total")).data) = ("INFORMACION").data := by
  refine ⟨fun text => ?_, by decide, by decide, by decide⟩
  unfold classify keywordScore
  split
  · rename_i h
    exact ⟨fun _ => h, fun _ => rfl⟩
  · rename_i h
    constructor
    · intro heq
      exact absurd heq (by decide)
    · intro h2
      exact absurd h2 h

/-! ## Claim C9 -/

/-- C9: `run_all` on the empty row list returns exactly the single
whole-file ERROR finding (and hence neither per-row check's finding); on
any non-empty row list it returns exactly the missing-values finding
followed by the duplicate-row finding. -/
theorem c9_validate_empty_and_order :
    runAll [] = [⟨("contenido").data, ("ERROR").data,
        some ((("El archivo está vacío")).data)⟩] ∧
    ∀ rows : List Row, rows ≠ [] →
      runAll rows = [checkMissing rows, checkDuplicates rows] := by
  refine ⟨rfl, fun rows h => ?_⟩
  unfold runAll
  rw [if_neg h]

def c9rows : List Row := [[((("col")).data, some ((("v")).data))]]

/-- C9 witness: a concrete non-empty row list runs both checks in order. -/
theorem c9_validate_empty_and_order_witness :
    c9rows ≠ [] ∧ runAll c9rows = [checkMissing c9rows, checkDuplicates c9rows] :=
  ⟨by decide, c9_validate_empty_and_order.2 c9rows (by decide)⟩

/-! ## Claim C10 -/

/-- C10: whenever the split index is 0 (the cleaned block starts with an
address-indicating token), the name side is empty and normalized to absent
while the block is returned as the address; and there is a concrete input on
which `extract_party` returns a block with an absent name and a present
address. -/
theorem c10_party_name_can_be_absent :
    (∀ block : Chars, splitIndexFull block = some 0 →
      (splitParty block).nombre = Option.none ∧
      (splitParty block).direccion = optOfStr (stripEnds spaceComma block)) ∧
    ∃ (text : Chars) (pb : PartyInfo) (addr : Chars),
      extractPartyBlock text (("cliente").data) = some pb ∧
      pb.nombre = Option.none ∧ pb.direccion = some addr := by
  constructor
  · intro block h
    unfold splitParty
    rw [h]
    constructor
    · simp [optOfStr, stripEnds]
    · simp
  · exact ⟨(("cliente: Calle Luna fecha: 1")).data,
      ⟨Option.none, some ((("Calle Luna")).data)⟩, (("Calle Luna")).data,
      by decide, rfl, rfl⟩

/-- C10 witness: the cleaned block `"Calle Luna"` splits at index 0, so its
name is normalized to absent. -/
theorem c10_party_name_can_be_absent_witness :
    splitIndexFull ((("Calle Luna")).data) = some 0 ∧
    (splitParty ((("Calle Luna")).data)).nombre = Option.none :=
  ⟨by decide, (c10_party_name_can_be_absent.1 ((("Calle Luna")).data)
    (by decide)).1⟩

/-! ## Claim C4 -/

theorem firstSome_eq_of (block : Chars) :
    ∀ (fs : List (Chars → Option Nat)) (i : Nat) (fi : Chars → Option Nat)
      (p : Nat),
      fs[i]? = some fi →
      (∀ k fk, k < i → fs[k]? = some fk → fk block = none) →
      fi block = some p →
      firstSome block fs = some p := by
  intro fs
  induction fs with
  | nil =>
    intro i fi p hget
    simp at hget
  | cons f ft ih =>
    intro i fi p hget hnone hfi
    cases i with
    | zero =>
      rw [List.getElem?_cons_zero, Option.some.injEq] at hget
      subst hget
      simp only [firstSome, hfi]
    | succ j =>
      have hf0 : f block = none :=
        hnone 0 f (Nat.succ_pos j) (by rw [List.getElem?_cons_zero])
      simp only [firstSome, hf0]
      refine ih j fi p
        (by rw [List.getElem?_cons_succ] at hget; exact hget)
        (fun k fk hk hgk => hnone (k + 1) fk (by omega) ?_) hfi
      rw [List.getElem?_cons_succ]
      exact hgk

/-- C4: the name/address split uses the match position of the first keyword
in the `cut_keywords` priority-list order that matches anywhere in the
block, not the leftmost-positioned match: if every keyword before index `i`
fails, the keyword at index `i` matches at position `pi`, and some
later-listed keyword at index `j > i` matches at an earlier text position
`pj < pi`, the split still happens at `pi`. -/
theorem c4_split_priority_order (block : Chars) (i j : Nat)
    (fi fj : Chars → Option Nat) (pi pj : Nat)
    (hij : i < j)
    (hgi : kwFinders[i]? = some fi) (hgj : kwFinders[j]? = some fj)
    (hnone : ∀ k fk, k < i → kwFinders[k]? = some fk → fk block = none)
    (hfi : fi block = some pi) (hfj : fj block = some pj)
    (hpos : pj < pi) :
    splitIndexKw block = some pi ∧
    splitParty block =
      ⟨optOfStr (stripEnds spaceComma (block.take pi)),
       optOfStr (stripEnds spaceComma (block.drop pi))⟩ := by
  have hmain : splitIndexKw block = some pi :=
    firstSome_eq_of block kwFinders i fi pi hgi hnone hfi
  have hfull : splitIndexFull block = some pi := by
    unfold splitIndexFull
    rw [hmain]
  refine ⟨hmain, ?_⟩
  unfold splitParty
  rw [hfull]

def c4block : Chars := (("Juan 123 Calle Falsa")).data

/-- C4 witness: in the block `"Juan 123 Calle Falsa"` the digit run (last in
the list) matches at position 5, before `Calle` (third in the list) at
position 9; `Av.` and `Avenida` do not match, so the split is at 9. -/
theorem c4_split_priority_order_witness :
    (findWordKw (("calle").data) c4block = some 9 ∧
      findDigitRunKw c4block = some 5) ∧
    splitIndexKw c4block = some 9 ∧
    splitParty c4block = ⟨some ((("Juan 123")).data),
      some ((("Calle Falsa")).data)⟩ := by
  have hnone : ∀ k fk, k < 2 → kwFinders[k]? = some fk →
      fk c4block = none := by
    intro k fk hk hget
    interval_cases k
    · rw [show kwFinders[0]? = some (findWordKw (("av").data)) from rfl,
        Option.some.injEq] at hget
      subst hget
      decide
    · rw [show kwFinders[1]? = some (findWordKw (("avenida").data)) from rfl,
        Option.some.injEq] at hget
      subst hget
      decide
  have h := c4_split_priority_order c4block 2 7
    (findWordKw (("calle").data)) findDigitRunKw 9 5 (by omega) rfl rfl
    hnone (by decide) (by decide) (by omega)
  exact ⟨⟨by decide, by decide⟩, h.1, h.2.trans (by decide)⟩

/-! ## Claim C6 -/

theorem findProdsF_pos_ge : ∀ (fuel i : Nat) (s : Chars),
    ∀ p ∈ findProdsF fuel i s, i ≤ p.1 := by
  intro fuel
  induction fuel with
  | zero =>
    intro i s p hp
    simp [findProdsF] at hp
  | succ n ih =>
    intro i s p hp
    cases s with
    | nil => simp [findProdsF] at hp
    | cons c t =>
      cases hm : matchProdAt (c :: t) with
      | none =>
        rw [show findProdsF (n + 1) i (c :: t)
            = (match matchProdAt (c :: t) with
               | some (g, rem) =>
                 (i, g) :: findProdsF n (i + ((c :: t).length - rem.length)) rem
               | none => findProdsF n (i + 1) t) from rfl, hm] at hp
        have := ih (i + 1) t p hp
        omega
      | some gr =>
        obtain ⟨g, rem⟩ := gr
        rw [show findProdsF (n + 1) i (c :: t)
            = (match matchProdAt (c :: t) with
               | some (g, rem) =>
                 (i, g) :: findProdsF n (i + ((c :: t).length - rem.length)) rem
               | none => findProdsF n (i + 1) t) from rfl, hm] at hp
        rcases List.mem_cons.mp hp with hp | hp
        · subst hp
          exact le_refl i
        · have := ih _ _ p hp
          omega

theorem findProdsF_chain : ∀ (fuel i : Nat) (s : Chars),
    List.Chain' (· < ·) ((findProdsF fuel i s).map Prod.fst) := by
  intro fuel
  induction fuel with
  | zero =>
    intro i s
    simp [findProdsF]
  | succ n ih =>
    intro i s
    cases s with
    | nil => simp [findProdsF]
    | cons c t =>
      cases hm : matchProdAt (c :: t) with
      | none =>
        rw [show findProdsF (n + 1) i (c :: t)
            = (match matchProdAt (c :: t) with
               | some (g, rem) =>
                 (i, g) :: findProdsF n (i + ((c :: t).length - rem.length)) rem
               | none => findProdsF n (i + 1) t) from rfl, hm]
        exact ih (i + 1) t
      | some gr =>
        obtain ⟨g, rem⟩ := gr
        rw [show findProdsF (n + 1) i (c :: t)
            = (match matchProdAt (c :: t) with
               | some (g, rem) =>
                 (i, g) :: findProdsF n (i + ((c :: t).length - rem.length)) rem
               | none => findProdsF n (i + 1) t) from rfl, hm]
        simp only [List.map_cons]
        rw [List.chain'_cons']
        refine ⟨?_, ih _ _⟩
        intro y hy
        have hlt : rem.length < (c :: t).length := matchProdAt_length hm
        cases hL : findProdsF n (i + ((c :: t).length - rem.length)) rem with
        | nil =>
          rw [hL] at hy
          simp at hy
        | cons q L =>
          rw [hL] at hy
          simp only [List.map_cons, List.head?_cons, Option.mem_def,
            Option.some.injEq] at hy
          subst hy
          have hq : i + ((c :: t).length - rem.length) ≤ q.1 :=
            findProdsF_pos_ge n _ rem q
              (by rw [hL]; exact List.mem_cons_self _ _)
          simp only [List.length_cons] at hq hlt ⊢
          omega

/-- C6 (amended): every ProductLine produced by the line-item extraction has
a non-negative quantity, and the produced sequence lists the
non-overlapping matches in strictly increasing position order (left-to-right
document order).  The name is the whitespace-stripped capture but — contrary
to the original claim — it may be empty (see the counterexample): the name
group can match a whitespace-only token. -/
theorem c6_product_invariants (text : Chars) :
    (∀ p ∈ extractProducts text, 0 ≤ p.cantidad) ∧
    List.Chain' (· < ·) ((prodMatches text).map Prod.fst) ∧
    extractProducts text = (prodMatches text).map (fun m =>
      ⟨mkRat (natOfDigits m.2.1) 1, pyStrip m.2.2.1,
       normalizeAmount m.2.2.2.1, normalizeAmount m.2.2.2.2⟩) := by
  refine ⟨?_, findProdsF_chain _ _ _, rfl⟩
  intro p hp
  unfold extractProducts at hp
  obtain ⟨m, hm, hpe⟩ := List.mem_map.mp hp
  rw [← hpe]
  show (0 : ℚ) ≤ mkRat (natOfDigits m.2.1) 1
  rw [Rat.mkRat_eq_div]
  positivity

def c6text : Chars := (("2   $5 $6")).data

/-- C6 counterexample: on `"2   $5 $6"` (no table header, so the whole text
is scanned) the name group can only match whitespace — the engine backtracks
the first `\s+` to one space and the name to a single space — so the
produced ProductLine has `nombre = ""` after stripping, refuting the
non-empty-name invariant. -/
theorem c6_counterexample :
    extractProducts c6text =
      [⟨mkRat 2 1, [], some (mkRat 5 1), some (mkRat 6 1)⟩] ∧
    ∀ p ∈ extractProducts c6text, p.nombre = [] := by
  exact ⟨by decide, by decide⟩

/-! ## Claim C7 -/

def c7raw : Chars := (("factura total: 0")).data

def idPipe : Chars → Chars := fun s => s

def c7deps : AnalyzeDeps := ⟨idPipe, idPipe, Except.ok ((("k")).data)⟩

/-- C7 counterexample: the text `"factura total: 0"` is classified FACTURA
and parses to total 0.0, which is *present*; but
`parsed.total and f"Factura con total estimado {parsed.total}"` evaluates
to the falsy float `0.0`, so the summary passed to persistence is the float
`0.0`, not the claimed one-line string. -/
theorem c7_counterexample :
    classify (sanitize c7raw) = ("FACTURA").data ∧
    (parseInvoice (sanitize c7raw)).total = some (0 : ℚ) ∧
    (analyzeModel c7deps (("f")).data c7raw).1.ai_summary
      = PyVal.float (0 : ℚ) ∧
    PyVal.float (0 : ℚ) ≠ PyVal.str (facturaMsg (0 : ℚ)) :=
  ⟨by decide, by decide, by decide, by decide⟩

/-- C7 (amended): in the orchestrated analysis of a FACTURA document, the
sentiment passed to persistence is always absent; when the parsed total is
absent the summary is absent; and when the total is present *and non-zero*
the summary is the one-line string `Factura con total estimado <total>`
with the total interpolated.  (When the total is present but zero, the
Python `and` short-circuit makes the summary the float `0.0` — see the
counterexample.) -/
theorem c7_factura_summary (deps : AnalyzeDeps) (filename rawText : Chars)
    (hf : classify (sanitize rawText) = ("FACTURA").data) :
    (analyzeModel deps filename rawText).1.sentiment = Option.none ∧
    ((parseInvoice (sanitize rawText)).total = Option.none →
      (analyzeModel deps filename rawText).1.ai_summary = PyVal.none) ∧
    (∀ q : ℚ, (parseInvoice (sanitize rawText)).total = some q → q ≠ 0 →
      (analyzeModel deps filename rawText).1.ai_summary =
        PyVal.str (facturaMsg q)) := by
  unfold analyzeModel
  simp only [hf, if_pos]
  refine ⟨by trivial, fun h0 => ?_, fun q hq hqne => ?_⟩
  · simp only [h0]
    rfl
  · simp only [hq]
    show pyAnd (PyVal.float q) (PyVal.str (facturaMsg ((some q).getD 0)))
      = PyVal.str (facturaMsg q)
    unfold pyAnd
    rw [if_pos (by simp [pyTruthy, hqne])]
    rfl

def c7raw2 : Chars := (("factura total: 5")).data

/-- C7 witness: for `"factura total: 5"` (classified FACTURA, total 5.0)
the persisted sentiment is absent and the summary is the interpolated
string. -/
theorem c7_factura_summary_witness :
    classify (sanitize c7raw2) = ("FACTURA").data ∧
    (analyzeModel c7deps (("f")).data c7raw2).1.sentiment = Option.none ∧
    (analyzeModel c7deps (("f")).data c7raw2).1.ai_summary =
      PyVal.str (facturaMsg (5 : ℚ)) := by
  have h := c7_factura_summary c7deps ((("f")).data) c7raw2 (by decide)
  exact ⟨by decide, h.1,
    h.2.2 (5 : ℚ) (by decide) (by norm_num)⟩

/-! ## Claim C8 -/

/-- C8: if the storage upload raises (the `RuntimeError` of
`S3StorageService.upload`), the analysis still completes: the stored
record's storage key is absent, and every other persisted field — and the
returned payload — is identical to what a successful upload would have
produced. -/
theorem c8_storage_failure_tolerated (sp stp : Chars → Chars)
    (filename rawText key : Chars) :
    ((analyzeModel ⟨sp, stp, Except.error ()⟩ filename rawText).1.s3_key
      = Option.none) ∧
    ((analyzeModel ⟨sp, stp, Except.ok key⟩ filename rawText).1.s3_key
      = some key) ∧
    ((analyzeModel ⟨sp, stp, Except.error ()⟩ filename rawText).2
      = (analyzeModel ⟨sp, stp, Except.ok key⟩ filename rawText).2) ∧
    ((analyzeModel ⟨sp, stp, Except.error ()⟩ filename rawText).1.filename
      = (analyzeModel ⟨sp, stp, Except.ok key⟩ filename rawText).1.filename) ∧
    ((analyzeModel ⟨sp, stp, Except.error ()⟩ filename rawText).1.document_type
      = (analyzeModel ⟨sp, stp, Except.ok key⟩ filename
          rawText).1.document_type) ∧
    ((analyzeModel ⟨sp, stp, Except.error ()⟩ filename rawText).1.payload
      = (analyzeModel ⟨sp, stp, Except.ok key⟩ filename rawText).1.payload) ∧
    ((analyzeModel ⟨sp, stp, Except.error ()⟩ filename rawText).1.ai_summary
      = (analyzeModel ⟨sp, stp, Except.ok key⟩ filename
          rawText).1.ai_summary) ∧
    ((analyzeModel ⟨sp, stp, Except.error ()⟩ filename rawText).1.sentiment
      = (analyzeModel ⟨sp, stp, Except.ok key⟩ filename rawText).1.sentiment) :=
  ⟨rfl, rfl, rfl, rfl, rfl, rfl, rfl, rfl⟩

/-! ## Claim C3

`sanitize` truncates *after* stripping, so truncation can expose a trailing
space; re-sanitizing then strips it.  The general lemmas below show that on
inputs whose cleaned text fits the 10,000-character bound, `sanitize` is a
fixed point of itself. -/

/-- Adjacency relation of whitespace-collapsed text: no two neighbouring
whitespace characters. -/
def WsR (a b : Char) : Prop := pySpace a = false ∨ pySpace b = false

theorem dropWhile_head_false (p : Char → Bool) :
    ∀ (l : Chars) (c : Char), (l.dropWhile p).head? = some c → p c = false := by
  intro l
  induction l with
  | nil =>
    intro c h
    simp [List.dropWhile] at h
  | cons d t ih =>
    intro c h
    rw [List.dropWhile_cons] at h
    split at h
    · exact ih c h
    · rename_i hd
      rw [List.head?_cons, Option.some.injEq] at h
      subst h
      cases hpc : p d
      · rfl
      · exact absurd hpc (by simpa using hd)

theorem dropWhile_eq_self_of_head (p : Char → Bool) (l : Chars)
    (h : ∀ c, l.head? = some c → p c = false) : l.dropWhile p = l := by
  cases l with
  | nil => rfl
  | cons c t =>
    rw [List.dropWhile_cons, if_neg]
    simp [h c rfl]

theorem stripEnds_head_false (p : Char → Bool) (l : Chars) :
    ∀ c, (stripEnds p l).head? = some c → p c = false := by
  intro c hc
  unfold stripEnds at hc
  rw [List.head?_reverse] at hc
  have hwne : (l.dropWhile p).reverse.dropWhile p ≠ [] := by
    intro h0
    rw [h0] at hc
    simp at hc
  obtain ⟨pre, hpre⟩ :=
    List.dropWhile_suffix (l := (l.dropWhile p).reverse) p
  have h2 : (l.dropWhile p).reverse.getLast? = some c := by
    rw [← hpre, List.getLast?_append_of_ne_nil pre hwne]
    exact hc
  rw [List.getLast?_reverse] at h2
  exact dropWhile_head_false p l c h2

theorem stripEnds_getLast_false (p : Char → Bool) (l : Chars) :
    ∀ c, (stripEnds p l).getLast? = some c → p c = false := by
  intro c hc
  unfold stripEnds at hc
  rw [List.getLast?_reverse] at hc
  exact dropWhile_head_false p _ c hc

theorem stripEnds_idem (p : Char → Bool) (l : Chars) :
    stripEnds p (stripEnds p l) = stripEnds p l := by
  have h1 : (stripEnds p l).dropWhile p = stripEnds p l :=
    dropWhile_eq_self_of_head p _ (fun c hc => stripEnds_head_false p l c hc)
  have h2 : (stripEnds p l).reverse.dropWhile p = (stripEnds p l).reverse := by
    refine dropWhile_eq_self_of_head p _ (fun c hc => ?_)
    rw [List.head?_reverse] at hc
    exact stripEnds_getLast_false p l c hc
  conv_lhs => rw [show stripEnds p (stripEnds p l)
    = (((stripEnds p l).dropWhile p).reverse.dropWhile p).reverse from rfl]
  rw [h1, h2, List.reverse_reverse]

theorem stripEnds_subset (p : Char → Bool) (l : Chars) :
    ∀ c ∈ stripEnds p l, c ∈ l := by
  intro c hc
  unfold stripEnds at hc
  rw [List.mem_reverse] at hc
  have hc2 := (List.dropWhile_suffix p).subset hc
  rw [List.mem_reverse] at hc2
  exact (List.dropWhile_suffix p).subset hc2

theorem chain'_dropWhile {R : Char → Char → Prop} (p : Char → Bool) :
    ∀ l : Chars, List.Chain' R l → List.Chain' R (l.dropWhile p) := by
  intro l
  induction l with
  | nil =>
    intro h
    simpa using h
  | cons c t ih =>
    intro h
    rw [List.dropWhile_cons]
    split
    · exact ih h.tail
    · exact h

theorem chain'_WsR_reverse (l : Chars) (h : List.Chain' WsR l) :
    List.Chain' WsR l.reverse := by
  rw [List.chain'_reverse]
  exact List.Chain'.imp (fun a b hab => Or.symm hab) h

theorem chain'_stripEnds (l : Chars) (h : List.Chain' WsR l) :
    List.Chain' WsR (stripEnds pySpace l) := by
  unfold stripEnds
  apply chain'_WsR_reverse
  apply chain'_dropWhile
  apply chain'_WsR_reverse
  apply chain'_dropWhile
  exact h

theorem collapseAux_mem : ∀ (b : Bool) (l : Chars) (c : Char),
    c ∈ collapseAux b l → c = ' ' ∨ c ∈ l := by
  intro b l
  induction l generalizing b with
  | nil =>
    intro c hc
    simp [collapseAux] at hc
  | cons d t ih =>
    intro c hc
    by_cases hd : pySpace d = true
    · cases b with
      | true =>
        simp only [collapseAux, hd, if_true] at hc
        rcases ih true c hc with h | h
        · exact Or.inl h
        · exact Or.inr (by simp [h])
      | false =>
        simp only [collapseAux, hd, if_true, if_false] at hc
        rcases List.mem_cons.mp hc with h | h
        · exact Or.inl h
        · rcases ih true c h with h2 | h2
          · exact Or.inl h2
          · exact Or.inr (by simp [h2])
    · have hd' : pySpace d = false := by simpa using hd
      simp only [collapseAux, hd', Bool.false_eq_true, if_false] at hc
      rcases List.mem_cons.mp hc with h | h
      · exact Or.inr (by simp [h])
      · rcases ih false c h with h2 | h2
        · exact Or.inl h2
        · exact Or.inr (by simp [h2])

theorem collapseAux_ws_space : ∀ (b : Bool) (l : Chars) (c : Char),
    c ∈ collapseAux b l → pySpace c = true → c = ' ' := by
  intro b l
  induction l generalizing b with
  | nil =>
    intro c hc
    simp [collapseAux] at hc
  | cons d t ih =>
    intro c hc hw
    by_cases hd : pySpace d = true
    · cases b with
      | true =>
        simp only [collapseAux, hd, if_true] at hc
        exact ih true c hc hw
      | false =>
        simp only [collapseAux, hd, if_true, if_false] at hc
        rcases List.mem_cons.mp hc with h | h
        · exact h
        · exact ih true c h hw
    · have hd' : pySpace d = false := by simpa using hd
      simp only [collapseAux, hd', Bool.false_eq_true, if_false] at hc
      rcases List.mem_cons.mp hc with h | h
      · subst h
        rw [hw] at hd'
        exact absurd hd' (by simp)
      · exact ih false c h hw

theorem collapseAux_head_true : ∀ (l : Chars) (c : Char),
    (collapseAux true l).head? = some c → pySpace c = false := by
  intro l
  induction l with
  | nil =>
    intro c h
    simp [collapseAux] at h
  | cons d t ih =>
    intro c h
    by_cases hd : pySpace d = true
    · simp only [collapseAux, hd, if_true] at h
      exact ih c h
    · have hd' : pySpace d = false := by simpa using hd
      simp only [collapseAux, hd', Bool.false_eq_true, if_false,
        List.head?_cons, Option.some.injEq] at h
      subst h
      exact hd'

theorem collapseAux_chain : ∀ (l : Chars) (b : Bool),
    List.Chain' WsR (collapseAux b l) := by
  intro l
  induction l with
  | nil =>
    intro b
    simp [collapseAux]
  | cons d t ih =>
    intro b
    by_cases hd : pySpace d = true
    · cases b with
      | true =>
        simp only [collapseAux, hd, if_true]
        exact ih true
      | false =>
        simp only [collapseAux, hd, if_true, Bool.false_eq_true, if_false]
        rw [List.chain'_cons']
        refine ⟨fun y hy => ?_, ih true⟩
        exact Or.inr (collapseAux_head_true t y (by simpa using hy))
    · have hd' : pySpace d = false := by simpa using hd
      simp only [collapseAux, hd', Bool.false_eq_true, if_false]
      rw [List.chain'_cons']
      exact ⟨fun y _ => Or.inl hd', ih false⟩

/-- Collapsing is the identity on text whose whitespace is already
normalized: every whitespace character is `' '`, no two are adjacent, and
the text does not start with one. -/
theorem collapseAux_eq_self : ∀ (n : Nat) (l : Chars), l.length ≤ n →
    (∀ c ∈ l, pySpace c = true → c = ' ') →
    List.Chain' WsR l →
    (∀ c, l.head? = some c → pySpace c = false) →
    ∀ b, collapseAux b l = l := by
  intro n
  induction n with
  | zero =>
    intro l hl _ _ _ b
    cases l with
    | nil => rfl
    | cons c t => simp at hl
  | succ n ih =>
    intro l hl hmem hchain hhead b
    cases l with
    | nil => rfl
    | cons c t =>
      have hc : pySpace c = false := hhead c rfl
      simp only [collapseAux, hc, Bool.false_eq_true, if_false]
      congr 1
      cases t with
      | nil => rfl
      | cons d t2 =>
        by_cases hd : pySpace d = true
        · have hd' : d = ' ' := hmem d (by simp) hd
          have hch2 : List.Chain' WsR (d :: t2) := hchain.tail
          have hh2 : ∀ e, t2.head? = some e → pySpace e = false := by
            intro e he
            rcases (List.chain'_cons'.mp hch2).1 e he with h | h
            · rw [hd] at h
              exact absurd h (by simp)
            · exact h
          have ht2 : collapseAux true t2 = t2 := by
            refine ih t2 ?_ (fun e he hw => hmem e (by simp [he]) hw)
              hch2.tail hh2 true
            simp only [List.length_cons] at hl ⊢
            omega
          simp only [collapseAux, hd, if_true, Bool.false_eq_true, if_false]
          rw [ht2, hd']
        · have hd' : pySpace d = false := by simpa using hd
          refine ih (d :: t2) ?_ (fun e he hw => hmem e (by simp [he]) hw)
            hchain.tail ?_ false
          · simp only [List.length_cons] at hl ⊢
            omega
          · intro e he
            rw [List.head?_cons, Option.some.injEq] at he
            subst he
            exact hd'

/-- C3 (amended): `sanitize` is idempotent on every input whose cleaned
(collapsed and stripped) text fits within the 10,000-character bound — i.e.
whenever the final truncation does not cut.  (Truncation happens *after*
stripping, so on longer inputs it can expose a trailing space that a second
`sanitize` removes — see the counterexample.) -/
theorem c3_sanitize_idempotent_of_short (x : Chars)
    (h : (pyStrip (collapseWs (replaceNul x))).length ≤ 10000) :
    sanitize (sanitize x) = sanitize x := by
  set y := pyStrip (collapseWs (replaceNul x)) with hy
  have hsx : sanitize x = y := by
    unfold sanitize
    rw [← hy]
    exact List.take_of_length_le h
  rw [hsx]
  have hsubz : ∀ c ∈ y, c ∈ collapseWs (replaceNul x) := by
    intro c hc
    rw [hy] at hc
    exact stripEnds_subset pySpace _ c hc
  have hmemy : ∀ c ∈ y, pySpace c = true → c = ' ' := fun c hc hw =>
    collapseAux_ws_space false (replaceNul x) c (hsubz c hc) hw
  have hnonuly : ∀ c ∈ y, c ≠ '\x00' := by
    intro c hc h0
    rcases collapseAux_mem false (replaceNul x) c (hsubz c hc) with h1 | h1
    · rw [h1] at h0
      exact absurd h0 (by decide)
    · obtain ⟨d, hd, hde⟩ := List.mem_map.mp h1
      rw [h0] at hde
      by_cases hdn : d = '\x00'
      · rw [if_pos hdn] at hde
        exact absurd hde (by decide)
      · rw [if_neg hdn] at hde
        exact hdn hde
  have hchainy : List.Chain' WsR y := by
    rw [hy]
    exact chain'_stripEnds _ (collapseAux_chain (replaceNul x) false)
  have hheady : ∀ c, y.head? = some c → pySpace c = false := by
    intro c hc
    rw [hy] at hc
    exact stripEnds_head_false pySpace _ c hc
  have hrn : replaceNul y = y :=
    map_eq_self_of y (fun c hc => if_neg (hnonuly c hc))
  have hcw : collapseWs y = y :=
    collapseAux_eq_self y.length y (le_refl _) hmemy hchainy hheady false
  have hst : pyStrip y = y := by
    rw [hy]
    exact stripEnds_idem pySpace _
  unfold sanitize
  rw [hrn, hcw, hst]
  exact List.take_of_length_le h

/-- C3 witness for the amended theorem: a short input with collapsible
whitespace. -/
theorem c3_sanitize_idempotent_of_short_witness :
    (pyStrip (collapseWs (replaceNul ((" a  b ")).data))).length ≤ 10000 ∧
    sanitize (sanitize ((" a  b ")).data) = sanitize ((" a  b ")).data :=
  ⟨by decide, c3_sanitize_idempotent_of_short ((" a  b ")).data (by decide)⟩

def pairA : Chars := ['a', ' ']

def pairQ : Chars := [' ', 'a']

/-- `"a a a ... a "` (n repetitions of `"a "`). -/
def jrep (n : Nat) : Chars := (List.replicate n pairA).flatten

def jrepQ (n : Nat) : Chars := (List.replicate n pairQ).flatten

/-- The C3 counterexample input: 5000 repetitions of `"a "` followed by
`"end"` — 10,003 characters, already whitespace-normalized, whose 10,000th
character is a space. -/
def cex3 : Chars := jrep 5000 ++ ("end").data

theorem jrep_succ (n : Nat) : jrep (n + 1) = 'a' :: ' ' :: jrep n := by
  unfold jrep
  rw [List.replicate_succ, List.flatten_cons]
  rfl

theorem jrepQ_succ (n : Nat) : jrepQ (n + 1) = ' ' :: 'a' :: jrepQ n := by
  unfold jrepQ
  rw [List.replicate_succ, List.flatten_cons]
  rfl

theorem length_jrep : ∀ n, (jrep n).length = 2 * n := by
  intro n
  induction n with
  | zero => rfl
  | succ m ih =>
    rw [jrep_succ]
    simp only [List.length_cons, ih]
    omega

theorem mem_jrep : ∀ (n : Nat) (c : Char), c ∈ jrep n → c = 'a' ∨ c = ' ' := by
  intro n
  induction n with
  | zero =>
    intro c hc
    rw [show jrep 0 = [] from rfl] at hc
    simp at hc
  | succ m ih =>
    intro c hc
    rw [jrep_succ] at hc
    rcases List.mem_cons.mp hc with h | h
    · exact Or.inl h
    · rcases List.mem_cons.mp h with h2 | h2
      · exact Or.inr h2
      · exact ih c h2

theorem collapseAux_jrep_end : ∀ (n : Nat) (b : Bool),
    collapseAux b (jrep n ++ ("end").data) = jrep n ++ ("end").data := by
  intro n
  induction n with
  | zero =>
    intro b
    cases b <;> decide
  | succ m ih =>
    intro b
    rw [jrep_succ]
    have ha : pySpace 'a' = false := by decide
    have hsp : pySpace ' ' = true := by decide
    rw [List.cons_append, List.cons_append]
    simp only [collapseAux, ha, Bool.false_eq_true, if_false, hsp, if_true]
    rw [ih true]

theorem collapseAux_jrep : ∀ (n : Nat) (b : Bool),
    collapseAux b (jrep n) = jrep n := by
  intro n
  induction n with
  | zero =>
    intro b
    cases b <;> rfl
  | succ m ih =>
    intro b
    rw [jrep_succ]
    have ha : pySpace 'a' = false := by decide
    have hsp : pySpace ' ' = true := by decide
    simp only [collapseAux, ha, Bool.false_eq_true, if_false, hsp, if_true]
    rw [ih true]

theorem replaceNul_jrep_end (n : Nat) :
    replaceNul (jrep n ++ ("end").data) = jrep n ++ ("end").data := by
  apply map_eq_self_of
  intro c hc
  rcases List.mem_append.mp hc with h | h
  · rcases mem_jrep n c h with h2 | h2 <;> (subst h2; decide)
  · fin_cases h <;> decide

theorem replaceNul_jrep (n : Nat) : replaceNul (jrep n) = jrep n := by
  apply map_eq_self_of
  intro c hc
  rcases mem_jrep n c hc with h2 | h2 <;> (subst h2; decide)

theorem strip_jrep_end (n : Nat) :
    stripEnds pySpace (jrep n ++ ("end").data) = jrep n ++ ("end").data := by
  have h1 : (jrep n ++ ("end").data).dropWhile pySpace
      = jrep n ++ ("end").data := by
    apply dropWhile_eq_self_of_head
    intro c hc
    cases n with
    | zero =>
      rw [show jrep 0 ++ ("end").data = ("end").data from rfl,
        show (("end").data).head? = some 'e' from rfl,
        Option.some.injEq] at hc
      subst hc
      decide
    | succ m =>
      rw [jrep_succ, List.cons_append, List.head?_cons,
        Option.some.injEq] at hc
      subst hc
      decide
  have h2 : (jrep n ++ ("end").data).reverse.dropWhile pySpace
      = (jrep n ++ ("end").data).reverse := by
    apply dropWhile_eq_self_of_head
    intro c hc
    rw [List.head?_reverse,
      List.getLast?_append_of_ne_nil _ (by decide),
      show (("end").data).getLast? = some 'd' from by decide,
      Option.some.injEq] at hc
    subst hc
    decide
  unfold stripEnds
  rw [h1, h2, List.reverse_reverse]

theorem reverse_jrep : ∀ n : Nat, (jrep n).reverse = jrepQ n := by
  intro n
  induction n with
  | zero => rfl
  | succ m ih =>
    rw [jrep_succ, List.reverse_cons, List.reverse_cons, ih]
    have hq : jrepQ (m + 1) = jrepQ m ++ pairQ := by
      unfold jrepQ
      rw [List.replicate_succ', List.flatten_append]
      simp
    rw [hq, List.append_assoc]
    rfl

theorem reverse_jrepQ (n : Nat) : (jrepQ n).reverse = jrep n := by
  rw [← reverse_jrep n, List.reverse_reverse]

theorem strip_jrep_succ (m : Nat) :
    stripEnds pySpace (jrep (m + 1)) = jrep m ++ ['a'] := by
  unfold stripEnds
  have h1 : (jrep (m + 1)).dropWhile pySpace = jrep (m + 1) := by
    apply dropWhile_eq_self_of_head
    intro c hc
    rw [jrep_succ, List.head?_cons, Option.some.injEq] at hc
    subst hc
    decide
  rw [h1, reverse_jrep, jrepQ_succ, List.dropWhile_cons,
    if_pos (by decide : pySpace ' ' = true), List.dropWhile_cons,
    if_neg (by decide : ¬ pySpace 'a' = true), List.reverse_cons,
    reverse_jrepQ]

theorem sanitize_cex3 : sanitize cex3 = jrep 5000 := by
  unfold sanitize cex3
  rw [replaceNul_jrep_end,
    show collapseWs (jrep 5000 ++ ("end").data) = jrep 5000 ++ ("end").data
      from collapseAux_jrep_end 5000 false,
    show pyStrip (jrep 5000 ++ ("end").data) = jrep 5000 ++ ("end").data
      from strip_jrep_end 5000,
    show (10000 : Nat) = (jrep 5000).length from by rw [length_jrep],
    List.take_left]

theorem sanitize_jrep5000 : sanitize (jrep 5000) = jrep 4999 ++ ['a'] := by
  unfold sanitize
  rw [replaceNul_jrep,
    show collapseWs (jrep 5000) = jrep 5000 from collapseAux_jrep 5000 false,
    show pyStrip (jrep 5000) = jrep 4999 ++ ['a'] from strip_jrep_succ 4999]
  apply List.take_of_length_le
  rw [List.length_append, length_jrep]
  simp

/-- C3 counterexample: on a 10,003-character input whose cleaned text's
10,000th character is a space (`"a " × 5000` then `"end"`), `sanitize`
truncates to 10,000 characters ending in a space, and applying `sanitize`
again strips that space — so `sanitize` is not idempotent. -/
theorem c3_counterexample : sanitize (sanitize cex3) ≠ sanitize cex3 := by
  rw [sanitize_cex3, sanitize_jrep5000]
  intro heq
  have hlen := congrArg List.length heq
  rw [List.length_append, length_jrep, length_jrep, List.length_cons,
    List.length_nil] at hlen
  omega

end DocAnalysis
